import Mathlib

set_option maxRecDepth 1000000

/-!
Verification of the `marselester/bloom` Bloom filter package.

The Go source is shallowly embedded below: byte strings become `List Nat`
(each entry a byte value), `uint64`/`uint32`/`byte` arithmetic becomes `Nat`
arithmetic with explicit wrap where the code can overflow, the `[]uint64`
bit store becomes `List Nat`, and fallible operations return `Option`/`Except`.
-/

namespace Bloom

/-- Byte strings (Go `[]byte`) are lists of byte values. -/
abbrev Bytes := List Nat

/-! ### SHA-256 (FIPS 180-4)

Modelled from the spec: the package hashes with Go's `crypto/sha256`,
which is outside this repository; the spec pins it down as "a cryptographic
digest (256-bit, e.g. SHA-256)".  The definitions below are the standard
SHA-256 of FIPS 180-4 over byte lists, and they are validated against the
digest values recorded in the repository's own tests
(`hash("test", 1000000) = 842533`, `bitpositions("test", 4, 48) = [7,36,32,37]`, …).
-/

/-- Reduce to a 32-bit word. -/
def mod32 (x : Nat) : Nat := x % 4294967296

/-- Right rotation of a 32-bit word. -/
def rotr (n x : Nat) : Nat := mod32 ((x >>> n) ||| (x <<< (32 - n)))

/-- FIPS 180-4 `Ch` function (32-bit). -/
def chFn (x y z : Nat) : Nat := (x &&& y) ^^^ ((x ^^^ 0xffffffff) &&& z)

/-- FIPS 180-4 `Maj` function. -/
def majFn (x y z : Nat) : Nat := (x &&& y) ^^^ (x &&& z) ^^^ (y &&& z)

/-- FIPS 180-4 `Σ₀`. -/
def bigSigma0 (x : Nat) : Nat := rotr 2 x ^^^ rotr 13 x ^^^ rotr 22 x

/-- FIPS 180-4 `Σ₁`. -/
def bigSigma1 (x : Nat) : Nat := rotr 6 x ^^^ rotr 11 x ^^^ rotr 25 x

/-- FIPS 180-4 `σ₀`. -/
def smallSigma0 (x : Nat) : Nat := rotr 7 x ^^^ rotr 18 x ^^^ (x >>> 3)

/-- FIPS 180-4 `σ₁`. -/
def smallSigma1 (x : Nat) : Nat := rotr 17 x ^^^ rotr 19 x ^^^ (x >>> 10)

/-- The 64 SHA-256 round constants `K[0] = 0x428a2f98 … K[63] = 0xc67178f2`
(written in decimal). -/
def roundConsts : List Nat :=
  [1116352408, 1899447441, 3049323471, 3921009573, 961987163, 1508970993,
   2453635748, 2870763221, 3624381080, 310598401, 607225278, 1426881987,
   1925078388, 2162078206, 2614888103, 3248222580, 3835390401, 4022224774,
   264347078, 604807628, 770255983, 1249150122, 1555081692, 1996064986,
   2554220882, 2821834349, 2952996808, 3210313671, 3336571891, 3584528711,
   113926993, 338241895, 666307205, 773529912, 1294757372, 1396182291,
   1695183700, 1986661051, 2177026350, 2456956037, 2730485921, 2820302411,
   3259730800, 3345764771, 3516065817, 3600352804, 4094571909, 275423344,
   430227734, 506948616, 659060556, 883997877, 958139571, 1322822218,
   1537002063, 1747873779, 1955562222, 2024104815, 2227730452, 2361852424,
   2428436474, 2756734187, 3204031479, 3329325298]

/-- The eight 32-bit working variables of SHA-256. -/
structure Words8 where
  a : Nat
  b : Nat
  c : Nat
  d : Nat
  e : Nat
  f : Nat
  g : Nat
  h : Nat
deriving DecidableEq, Repr

/-- The SHA-256 initial hash value `H[0] = 0x6a09e667 … H[7] = 0x5be0cd19`
(written in decimal). -/
def initialState : Words8 :=
  ⟨1779033703, 3144134277, 1013904242, 2773480762,
   1359893119, 2600822924, 528734635, 1541459225⟩

/-- One SHA-256 compression round with round constant `k` and schedule word `w`. -/
def sha256Round (st : Words8) (k w : Nat) : Words8 :=
  let t1 := mod32 (st.h + bigSigma1 st.e + chFn st.e st.f st.g + k + w)
  let t2 := mod32 (bigSigma0 st.a + majFn st.a st.b st.c)
  ⟨mod32 (t1 + t2), st.a, st.b, st.c, mod32 (st.d + t1), st.e, st.f, st.g⟩

/-- Run the 64 compression rounds over the zipped constants and schedule. -/
def sha256Rounds (st : Words8) : List (Nat × Nat) → Words8
  | [] => st
  | (k, w) :: rest => sha256Rounds (sha256Round st k w) rest

/-- Add two states word-wise modulo `2^32`. -/
def addState (x y : Words8) : Words8 :=
  ⟨mod32 (x.a + y.a), mod32 (x.b + y.b), mod32 (x.c + y.c), mod32 (x.d + y.d),
   mod32 (x.e + y.e), mod32 (x.f + y.f), mod32 (x.g + y.g), mod32 (x.h + y.h)⟩

/-- Group bytes into big-endian 32-bit words. -/
def toWords : List Nat → List Nat
  | b0 :: b1 :: b2 :: b3 :: rest => (((b0 * 256 + b1) * 256 + b2) * 256 + b3) :: toWords rest
  | _ => []

/-- Extend the (reversed) message schedule by `n` further words; returns the
schedule in forward order. -/
def extendW : List Nat → Nat → List Nat
  | acc, 0 => acc.reverse
  | acc, n + 1 =>
      extendW (mod32 (smallSigma1 (acc.getD 1 0) + acc.getD 6 0 +
                      smallSigma0 (acc.getD 14 0) + acc.getD 15 0) :: acc) n

/-- Process one 64-byte block. -/
def processBlock (st : Words8) (block : List Nat) : Words8 :=
  let w := extendW (toWords block).reverse 48
  addState st (sha256Rounds st (roundConsts.zip w))

/-- Process a list of blocks in order. -/
def processBlocks (st : Words8) : List (List Nat) → Words8
  | [] => st
  | b :: rest => processBlocks (processBlock st b) rest

/-- Big-endian bytes of a 64-bit length field. -/
def beBytes8 (v : Nat) : List Nat :=
  [(v >>> 56) % 256, (v >>> 48) % 256, (v >>> 40) % 256, (v >>> 32) % 256,
   (v >>> 24) % 256, (v >>> 16) % 256, (v >>> 8) % 256, v % 256]

/-- Big-endian bytes of a 32-bit word. -/
def beBytes4 (w : Nat) : List Nat :=
  [(w >>> 24) % 256, (w >>> 16) % 256, (w >>> 8) % 256, w % 256]

/-- SHA-256 padding: a `0x80` byte, zeros to 56 mod 64, then the bit length
as a 64-bit big-endian integer. -/
def padMessage (msg : List Nat) : List Nat :=
  msg ++ 0x80 :: (List.replicate ((119 - msg.length % 64) % 64) 0 ++
    beBytes8 (8 * msg.length % 18446744073709551616))

/-- Split into 64-byte blocks (`fuel` bounds the recursion; any `fuel ≥` the
number of blocks gives the same result). -/
def chunk64 : List Nat → Nat → List (List Nat)
  | _, 0 => []
  | [], _ + 1 => []
  | l, n + 1 => l.take 64 :: chunk64 (l.drop 64) n

/-- The SHA-256 digest (32 bytes) of a byte string. -/
def sha256 (msg : List Nat) : List Nat :=
  let padded := padMessage msg
  let st := processBlocks initialState (chunk64 padded padded.length)
  beBytes4 st.a ++ beBytes4 st.b ++ beBytes4 st.c ++ beBytes4 st.d ++
  beBytes4 st.e ++ beBytes4 st.f ++ beBytes4 st.g ++ beBytes4 st.h

/-! ### The hash function of the package -/

/-- Lowercase hex encoding of a byte string (Go `fmt.Sprintf("%x", …)`),
with each hex character represented by its digit value `0..15`. -/
def hexEncode : List Nat → List Nat
  | [] => []
  | b :: rest => b / 16 :: b % 16 :: hexEncode rest

/-- Digit-by-digit base-16 accumulation with the 64-bit overflow check of
Go's `strconv.ParseUint(…, 16, 64)`. -/
def parseHex : List Nat → Nat → Option Nat
  | [], acc => some acc
  | d :: rest, acc =>
      if d < 16 then
        if acc * 16 + d < 18446744073709551616 then parseHex rest (acc * 16 + d) else none
      else none

/-- Go `strconv.ParseUint(s, 16, 64)` on a list of hex digit values:
fails on an empty string, a non-digit, or 64-bit overflow. -/
def parseUint (ds : List Nat) : Option Nat :=
  match ds with
  | [] => none
  | _ :: _ => parseHex ds 0

/-- `hash` from the source: SHA-256 the bytes, hex-encode the digest, parse the
first 16 hex characters as a base-16 unsigned 64-bit integer, reduce mod
`bitlen`.  The digest write in Go cannot fail; `ParseUint` is the only error
source.  (Go faults with a division-by-zero panic when `bitlen == 0`; Lean's
`% 0` is the identity instead, and every theorem about a filter assumes
`0 < bitlen`, which construction establishes.) -/
def hash (b : List Nat) (bitlen : Nat) : Option Nat :=
  match parseUint ((hexEncode (sha256 b)).take 16) with
  | none => none
  | some i => some (i % bitlen)

/-! ### Position derivation, bit addressing, and the filter -/

/-- `bitpositions`' loop: hash `element ++ [i]` for `i = i₀, i₀+1, …`,
`count` many times, stopping at the first hash error. -/
def bitpositionsAux (element : Bytes) (bitlen : Nat) (i : Nat) : Nat → Option (List Nat)
  | 0 => some []
  | count + 1 =>
      match hash (element ++ [i]) bitlen with
      | none => none
      | some p =>
          match bitpositionsAux element bitlen (i + 1) count with
          | none => none
          | some rest => some (p :: rest)

/-- `bitpositions` from the source: concatenate the element and the hash
index byte to obtain `hashqty` bit positions.  (Go also returns the
partially-filled slice alongside a non-nil error; both callers discard it,
so the model collapses that case to `none`.) -/
def bitpositions (element : Bytes) (hashqty : Nat) (bitlen : Nat) : Option (List Nat) :=
  bitpositionsAux element bitlen 0 hashqty

/-- Go's `int(v)` conversion of a `uint64` value: wraps into
`[-2^63, 2^63)`. -/
def int64ofNat (v : Nat) : Int :=
  if v % 18446744073709551616 < 9223372036854775808 then
    ((v % 18446744073709551616 : Nat) : Int)
  else
    ((v % 18446744073709551616 : Nat) : Int) - 18446744073709551616

/-- `bitlocation` from the source: index in a bitstore and bit offset in a
bit bucket; a zero `bitsize` defaults to 8.  The index is returned through
Go's `int(index)` conversion (wrapping) and the offset through `byte(offset)`
(reduction mod 256). -/
def bitlocation (p : Nat) (bitsize : Nat) : Int × Nat :=
  let bs := if bitsize = 0 then 8 else bitsize
  let index := p / bs
  let offset := p - index * bs
  (int64ofNat index, offset % 256)

/-- `Filter` from the source.  `prob` is Go `float64`; only its sign is ever
inspected by the code embedded here, so it is carried as an exact rational. -/
structure Filter where
  prob : Rat
  bitlen : Nat
  hashqty : Nat
  n : Nat
  bitstore : List Nat
deriving DecidableEq, Repr

/-- Errors of the package (`Error` is a string type in the source). -/
abbrev Err := String

/-- `ErrZeroElements` from the source. -/
def ErrZeroElements : Err := "number of elements must be positive"

/-- `ErrProbability` from the source. -/
def ErrProbability : Err := "probability must be positive"

/-- `New` from the source.  The two capacity-planner functions
(`optimalBitLen`, `optimalHashQty`) compute with IEEE-754 `float64`
(`math.Log`, `math.Ceil`) and are parameters of the embedding; everything
else is the source's integer logic. -/
def New (optimalBitLen : Nat → Rat → Nat) (optimalHashQty : Rat → Nat)
    (n : Nat) (prob : Rat) : Except Err Filter :=
  if n = 0 then .error ErrZeroElements
  else if prob ≤ 0 then .error ErrProbability
  else
    let hashqty := optimalHashQty prob
    let bitlen := optimalBitLen n prob
    let buckets := bitlen / 64 + (if bitlen % 64 = 0 then 0 else 1)
    .ok { n := n, prob := prob, hashqty := hashqty, bitlen := bitlen,
          bitstore := List.replicate buckets 0 }

/-- The body of `Add`'s loop: set the bit for position `p`
(`bitstore[index] |= 1 << offset`).  Go indexes the slice with the `int`
word index; for every reachable position it is nonnegative, and `Int.toNat`
realises the in-range conversion. -/
def addBit (store : List Nat) (p : Nat) : List Nat :=
  let loc := bitlocation p 64
  store.set loc.1.toNat (store.getD loc.1.toNat 0 ||| 1 <<< loc.2)

/-- `Add`'s loop over all derived positions. -/
def setLoop (store : List Nat) : List Nat → List Nat
  | [] => store
  | p :: rest => setLoop (addBit store p) rest

/-- `Add` from the source: derive the positions and set each bit.  The Go
method mutates `bf.bitstore` in place and returns an error; the model
returns the updated filter (or `none` for a hash error). -/
def Add (bf : Filter) (element : Bytes) : Option Filter :=
  match bitpositions element bf.hashqty bf.bitlen with
  | none => none
  | some pos => some { bf with bitstore := setLoop bf.bitstore pos }

/-- `Has`'s loop: return `false` on the first position whose bit is 0. -/
def hasLoop (store : List Nat) : List Nat → Bool
  | [] => true
  | p :: rest =>
      let loc := bitlocation p 64
      if store.getD loc.1.toNat 0 &&& (1 <<< loc.2) == 0 then false
      else hasLoop store rest

/-- `Has` from the source: derive the same positions and test each bit. -/
def Has (bf : Filter) (element : Bytes) : Option Bool :=
  match bitpositions element bf.hashqty bf.bitlen with
  | none => none
  | some pos => some (hasLoop bf.bitstore pos)

/-- Apply `Add` for each element of a list in order, as a caller issuing a
sequence of adds would (`Add` never fails — see `Add_total` — so the
`getD` fallback never fires). -/
def addSeq (f : Filter) (es : List Bytes) : Filter :=
  es.foldl (fun g e => (Add g e).getD g) f

/-- Specification-level bit lookup: bit `p` of the flat bit array. -/
def getBit (store : List Nat) (p : Nat) : Bool :=
  (store.getD (p / 64) 0).testBit (p % 64)

/-! ### Facts about the digest and the hex parse -/

/-- The digest is 32 bytes long. -/
theorem sha256_length (msg : List Nat) : (sha256 msg).length = 32 := rfl

/-- Every entry of `beBytes4` is a byte value. -/
theorem beBytes4_lt {b w : Nat} (hb : b ∈ beBytes4 w) : b < 256 := by
  simp only [beBytes4, List.mem_cons, List.not_mem_nil, or_false] at hb
  rcases hb with rfl | rfl | rfl | rfl <;> exact Nat.mod_lt _ (by norm_num)

/-- Every digest entry is a byte value. -/
theorem sha256_lt {msg : List Nat} {b : Nat} (hb : b ∈ sha256 msg) : b < 256 := by
  simp only [sha256, List.mem_append] at hb
  rcases hb with ((((((h | h) | h) | h) | h) | h) | h) | h <;> exact beBytes4_lt h

/-- Hex encoding doubles the length. -/
theorem hexEncode_length (bs : List Nat) : (hexEncode bs).length = 2 * bs.length := by
  induction bs with
  | nil => rfl
  | cons b rest ih => simp [hexEncode, ih]; omega

/-- Hex encoding of byte values yields hex digit values. -/
theorem hexEncode_lt {bs : List Nat} (hbs : ∀ b ∈ bs, b < 256) :
    ∀ d ∈ hexEncode bs, d < 16 := by
  induction bs with
  | nil => simp [hexEncode]
  | cons b rest ih =>
      intro d hd
      simp only [hexEncode, List.mem_cons] at hd
      have hb : b < 256 := hbs b (by simp)
      rcases hd with rfl | rfl | hd
      · omega
      · exact Nat.mod_lt _ (by norm_num)
      · exact ih (fun x hx => hbs x (by simp [hx])) d hd

/-- `parseHex` keeps its accumulator below `2^64`. -/
theorem parseHex_lt {ds : List Nat} {acc v : Nat} (h : parseHex ds acc = some v)
    (hacc : acc < 18446744073709551616) : v < 18446744073709551616 := by
  induction ds generalizing acc with
  | nil => simp only [parseHex, Option.some.injEq] at h; omega
  | cons d rest ih =>
      simp only [parseHex] at h
      split at h
      · split at h
        · exact ih h (by omega)
        · exact absurd h (by simp)
      · exact absurd h (by simp)

/-- `parseHex` succeeds on hex digits whenever the value cannot overflow. -/
theorem parseHex_some {ds : List Nat} (hds : ∀ d ∈ ds, d < 16) :
    ∀ acc : Nat, (acc + 1) * 16 ^ ds.length ≤ 18446744073709551616 →
    ∃ v, parseHex ds acc = some v := by
  induction ds with
  | nil => intro acc h; exact ⟨acc, rfl⟩
  | cons d rest ih =>
      intro acc hbound
      have hd : d < 16 := hds d (by simp)
      have hlen : (16 : Nat) ^ (d :: rest).length = 16 ^ rest.length * 16 := by
        simp [List.length_cons, pow_succ]
      have hstep : (acc * 16 + d + 1) * 16 ^ rest.length ≤ 18446744073709551616 := by
        calc (acc * 16 + d + 1) * 16 ^ rest.length
            ≤ ((acc + 1) * 16) * 16 ^ rest.length := by
              apply Nat.mul_le_mul_right
              omega
          _ = (acc + 1) * 16 ^ (d :: rest).length := by rw [hlen]; ring
          _ ≤ 18446744073709551616 := hbound
      have hv0 : acc * 16 + d < 18446744073709551616 := by
        have h1 : (1 : Nat) ≤ 16 ^ rest.length := Nat.one_le_pow _ _ (by norm_num)
        calc acc * 16 + d < acc * 16 + d + 1 := by omega
          _ ≤ (acc * 16 + d + 1) * 16 ^ rest.length := Nat.le_mul_of_pos_right _ (by omega)
          _ ≤ 18446744073709551616 := hstep
      obtain ⟨v, hv⟩ := ih (fun x hx => hds x (by simp [hx])) (acc * 16 + d) hstep
      exact ⟨v, by simp only [parseHex, if_pos hd, if_pos hv0]; exact hv⟩

/-- The hash function never fails, and its result is a position below
`bitlen` (and in any case below `2^64`). -/
theorem hash_some (b : List Nat) (m : Nat) :
    ∃ v, hash b m = some v ∧ v < 18446744073709551616 ∧ (0 < m → v < m) := by
  have hlen : ((hexEncode (sha256 b)).take 16).length = 16 := by
    rw [List.length_take, hexEncode_length, sha256_length]
    norm_num
  have hdig : ∀ d ∈ (hexEncode (sha256 b)).take 16, d < 16 := fun d hd =>
    hexEncode_lt (fun x hx => sha256_lt hx) d (List.mem_of_mem_take hd)
  obtain ⟨u, hu⟩ := parseHex_some hdig 0 (by rw [hlen]; norm_num)
  have hu64 : u < 18446744073709551616 := parseHex_lt hu (by norm_num)
  have hne : (hexEncode (sha256 b)).take 16 ≠ [] := by
    intro hc; rw [hc] at hlen; simp at hlen
  have hparse : parseUint ((hexEncode (sha256 b)).take 16) = some u := by
    unfold parseUint
    split
    · simp_all
    · exact hu
  refine ⟨u % m, ?_, ?_, fun hm => Nat.mod_lt _ hm⟩
  · unfold hash
    rw [hparse]
  · exact lt_of_le_of_lt (Nat.mod_le _ _) hu64

/-! ### Facts about `bitpositions` -/

/-- The position loop never fails and produces `count` positions below
`bitlen` (below `2^64` in any case), the `j`-th being the hash of the
element with index byte `i + j` appended. -/
theorem bitpositionsAux_spec (element : Bytes) (m : Nat) :
    ∀ (count i : Nat), ∃ ps, bitpositionsAux element m i count = some ps ∧
      ps.length = count ∧
      (∀ p ∈ ps, p < 18446744073709551616 ∧ (0 < m → p < m)) ∧
      (∀ j, j < count → hash (element ++ [i + j]) m = some (ps.getD j 0)) := by
  intro count
  induction count with
  | zero => exact fun i => ⟨[], rfl, rfl, by simp, by omega⟩
  | succ c ih =>
      intro i
      obtain ⟨v, hv, hv64, hvm⟩ := hash_some (element ++ [i]) m
      obtain ⟨ps, hps, hlen, hmem, hget⟩ := ih (i + 1)
      refine ⟨v :: ps, ?_, by simp [hlen], ?_, ?_⟩
      · simp only [bitpositionsAux, hv, hps]
      · intro p hp
        rcases List.mem_cons.mp hp with rfl | hp
        · exact ⟨hv64, hvm⟩
        · exact hmem p hp
      · intro j hj
        match j with
        | 0 => simpa using hv
        | j + 1 =>
            have := hget j (by omega)
            simpa [Nat.add_assoc, Nat.add_comm 1 j] using this

/-- `bitpositions` never fails; its result has exactly `hashqty` entries,
all below `bitlen` when `bitlen` is positive, the `j`-th being
`hash (element ++ [j])`. -/
theorem bitpositions_spec (element : Bytes) (hashqty m : Nat) :
    ∃ ps, bitpositions element hashqty m = some ps ∧
      ps.length = hashqty ∧
      (∀ p ∈ ps, p < 18446744073709551616 ∧ (0 < m → p < m)) ∧
      (∀ j, j < hashqty → hash (element ++ [j]) m = some (ps.getD j 0)) := by
  obtain ⟨ps, hps, hlen, hmem, hget⟩ := bitpositionsAux_spec element m hashqty 0
  exact ⟨ps, hps, hlen, hmem, fun j hj => by simpa using hget j hj⟩

/-! ### Facts about bit addressing and the bit store -/

/-- For any position below `2^64` the 64-bit word location is the plain
division/remainder pair: the `int` conversion cannot wrap. -/
theorem bitlocation64 {p : Nat} (hp : p < 18446744073709551616) :
    bitlocation p 64 = (((p / 64 : Nat) : Int), p % 64) := by
  have hdiv : p / 64 < 9223372036854775808 := by omega
  have hoff : p - p / 64 * 64 = p % 64 := by omega
  have hmod : p % 64 < 256 := by omega
  simp only [bitlocation, int64ofNat]
  norm_num
  rw [hoff, Nat.mod_eq_of_lt (by omega), if_pos (by omega)]
  omega

/-- `addBit` rewritten through the location bridge. -/
theorem addBit_eq {store : List Nat} {p : Nat} (hp : p < 18446744073709551616) :
    addBit store p =
      store.set (p / 64) (store.getD (p / 64) 0 ||| 2 ^ (p % 64)) := by
  simp only [addBit, bitlocation64 hp, Int.toNat_ofNat, Nat.shiftLeft_eq, one_mul]

/-- Setting one bit preserves the word count. -/
theorem length_addBit (store : List Nat) (p : Nat) :
    (addBit store p).length = store.length := List.length_set ..

/-- Setting many bits preserves the word count. -/
theorem length_setLoop (ps : List Nat) (store : List Nat) :
    (setLoop store ps).length = store.length := by
  induction ps generalizing store with
  | nil => rfl
  | cons p rest ih => simp [setLoop, ih, length_addBit]

/-- `List.getD` after `List.set`, in one equation. -/
theorem getD_set (store : List Nat) (i j v : Nat) :
    (store.set i v).getD j 0 =
      if i = j ∧ i < store.length then v else store.getD j 0 := by
  rcases Nat.lt_or_ge i store.length with hlt | hge
  · by_cases hij : i = j
    · subst hij
      simp [List.getD_eq_getElem?_getD, List.getElem?_set_self hlt, hlt]
    · simp [List.getD_eq_getElem?_getD, List.getElem?_set_ne hij, hij]
  · rw [List.set_eq_of_length_le hge, if_neg (fun hc => by omega)]

/-- `getBit` after a word update. -/
theorem getBit_set (store : List Nat) (i v q : Nat) :
    getBit (store.set i v) q =
      if i = q / 64 ∧ i < store.length then v.testBit (q % 64)
      else getBit store q := by
  unfold getBit
  rw [getD_set]
  split <;> rfl

/-- Setting an out-of-range index to its current value is the identity. -/
theorem set_getD_self (store : List Nat) (i : Nat) (h : i < store.length) :
    store.set i (store.getD i 0) = store := by
  induction store generalizing i with
  | nil => simp at h
  | cons a rest ih =>
      cases i with
      | zero => rfl
      | succ j =>
          simp only [List.set, List.getD_cons_succ]
          rw [ih j (by simpa using h)]

/-- ORing in an already-set bit changes nothing. -/
theorem lor_two_pow_of_testBit {x o : Nat} (h : x.testBit o = true) :
    x ||| 2 ^ o = x :=
  Nat.eq_of_testBit_eq fun j => by
    rw [Nat.testBit_lor, Nat.testBit_two_pow]
    by_cases hoj : o = j
    · subst hoj; simp [h]
    · simp [hoj]

/-- The mask test of the source against the `testBit` view. -/
theorem and_mask_beq_zero (x o : Nat) :
    (x &&& 2 ^ o == 0) = !x.testBit o := by
  cases h : x.testBit o <;>
    simp [Nat.and_two_pow, h, (pow_pos (by norm_num : (0 : Nat) < 2) o).ne']

/-- A set bit survives `addBit`. -/
theorem getBit_addBit_of_getBit {store : List Nat} {q : Nat} (p : Nat)
    (h : getBit store q = true) : getBit (addBit store p) q = true := by
  unfold addBit
  rw [getBit_set]
  split
  · next hc =>
      obtain ⟨hi, _⟩ := hc
      rw [Nat.shiftLeft_eq, one_mul, Nat.testBit_lor]
      unfold getBit at h
      rw [hi, h, Bool.true_or]
  · exact h

/-- `addBit` sets its own bit when the word index is in range. -/
theorem getBit_addBit_self {store : List Nat} {p : Nat}
    (hp : p < 18446744073709551616) (hlen : p / 64 < store.length) :
    getBit (addBit store p) p = true := by
  rw [addBit_eq hp, getBit_set, if_pos ⟨rfl, hlen⟩, Nat.testBit_lor,
    Nat.testBit_two_pow_self, Bool.or_true]

/-- `addBit` on an already-set bit is a no-op. -/
theorem addBit_of_getBit {store : List Nat} {p : Nat}
    (hp : p < 18446744073709551616) (h : getBit store p = true) :
    addBit store p = store := by
  have hlen : p / 64 < store.length := by
    by_contra hge
    unfold getBit at h
    rw [List.getD_eq_getElem?_getD, List.getElem?_eq_none (by omega)] at h
    simp at h
  rw [addBit_eq hp, lor_two_pow_of_testBit h, set_getD_self _ _ hlen]

/-- `addBit` past the end of the store is a no-op (Go would panic here;
construction makes it unreachable). -/
theorem addBit_of_oob {store : List Nat} {p : Nat}
    (hp : p < 18446744073709551616) (hge : store.length ≤ p / 64) :
    addBit store p = store := by
  rw [addBit_eq hp, List.set_eq_of_length_le hge]

/-- A set bit survives a whole `setLoop`. -/
theorem getBit_setLoop_of_getBit {ps : List Nat} {store : List Nat} {q : Nat}
    (h : getBit store q = true) : getBit (setLoop store ps) q = true := by
  induction ps generalizing store with
  | nil => exact h
  | cons p rest ih => exact ih (getBit_addBit_of_getBit p h)

/-- After `setLoop`, every listed in-range position has its bit set. -/
theorem getBit_setLoop_of_mem {ps : List Nat} {store : List Nat} {q : Nat}
    (hq : q ∈ ps) (hq64 : q < 18446744073709551616)
    (hlen : q / 64 < store.length) :
    getBit (setLoop store ps) q = true := by
  induction ps generalizing store with
  | nil => simp at hq
  | cons p rest ih =>
      simp only [setLoop]
      rcases List.mem_cons.mp hq with rfl | hq
      · exact getBit_setLoop_of_getBit (getBit_addBit_self hq64 hlen)
      · exact ih hq (by rw [length_addBit]; exact hlen)

/-- `setLoop` is the identity when every listed position is already set or
out of range. -/
theorem setLoop_noop {ps : List Nat} {store : List Nat}
    (h : ∀ p ∈ ps, p < 18446744073709551616 ∧
      (getBit store p = true ∨ store.length ≤ p / 64)) :
    setLoop store ps = store := by
  induction ps with
  | nil => rfl
  | cons p rest ih =>
      obtain ⟨hp64, hp⟩ := h p (by simp)
      have hnoop : addBit store p = store := by
        rcases hp with hset | hoob
        · exact addBit_of_getBit hp64 hset
        · exact addBit_of_oob hp64 hoob
      simp only [setLoop, hnoop]
      exact ih fun x hx => h x (by simp [hx])

/-- Running `setLoop` twice with the same positions equals running it once. -/
theorem setLoop_setLoop {ps : List Nat} {store : List Nat}
    (hps : ∀ p ∈ ps, p < 18446744073709551616) :
    setLoop (setLoop store ps) ps = setLoop store ps := by
  apply setLoop_noop
  intro p hp
  refine ⟨hps p hp, ?_⟩
  rcases Nat.lt_or_ge (p / 64) store.length with hlt | hge
  · exact Or.inl (getBit_setLoop_of_mem hp (hps p hp) hlt)
  · exact Or.inr (by rw [length_setLoop]; exact hge)

/-- The query loop of the source is the all-bits-set test. -/
theorem hasLoop_eq_all {ps : List Nat} (store : List Nat)
    (hps : ∀ p ∈ ps, p < 18446744073709551616) :
    hasLoop store ps = ps.all fun p => getBit store p := by
  induction ps with
  | nil => rfl
  | cons p rest ih =>
      have hp64 : p < 18446744073709551616 := hps p (by simp)
      have hloc := bitlocation64 hp64
      simp only [hasLoop, hloc, Int.toNat_ofNat, Nat.shiftLeft_eq, one_mul,
        and_mask_beq_zero, List.all_cons]
      cases h : getBit store p with
      | false => simp [getBit] at h; simp [h]
      | true =>
          simp only [getBit] at h
          simp only [h, Bool.not_true, if_false, Bool.true_and]
          exact ih fun x hx => hps x (by simp [hx])

/-! ### Facts about the filter operations -/

/-- What a successful construction returns: the requested parameters, the
planner outputs, and a zeroed store of `ceil(bitlen / 64)` words. -/
theorem New_ok {obl : Nat → Rat → Nat} {ohq : Rat → Nat} {n : Nat} {prob : Rat}
    {f : Filter} (h : New obl ohq n prob = .ok f) :
    f.n = n ∧ f.prob = prob ∧ f.hashqty = ohq prob ∧ f.bitlen = obl n prob ∧
    f.bitstore =
      List.replicate (f.bitlen / 64 + if f.bitlen % 64 = 0 then 0 else 1) 0 := by
  unfold New at h
  split at h
  · exact absurd h (by simp)
  · split at h
    · exact absurd h (by simp)
    · simp only [Except.ok.injEq] at h
      subst h
      exact ⟨rfl, rfl, rfl, rfl, rfl⟩

/-- The word count of a constructed filter, as a ceiling division. -/
theorem New_length {obl : Nat → Rat → Nat} {ohq : Rat → Nat} {n : Nat}
    {prob : Rat} {f : Filter} (h : New obl ohq n prob = .ok f) :
    f.bitstore.length = (f.bitlen + 63) / 64 := by
  obtain ⟨-, -, -, -, hstore⟩ := New_ok h
  rw [hstore, List.length_replicate]
  split <;> omega

/-- A successful `Add` appends nothing but ORs the derived positions into
the store. -/
theorem Add_some {f : Filter} {e : Bytes} {f1 : Filter}
    (h : Add f e = some f1) :
    ∃ ps, bitpositions e f.hashqty f.bitlen = some ps ∧
      f1 = { f with bitstore := setLoop f.bitstore ps } := by
  unfold Add at h
  split at h
  · exact absurd h (by simp)
  · next ps hps =>
      simp only [Option.some.injEq] at h
      exact ⟨ps, hps, h.symm⟩

/-- `Add` never fails: the digest and the hex parse always succeed. -/
theorem Add_total (f : Filter) (e : Bytes) : ∃ f1, Add f e = some f1 := by
  obtain ⟨ps, hps, -, -, -⟩ := bitpositions_spec e f.hashqty f.bitlen
  exact ⟨{ f with bitstore := setLoop f.bitstore ps }, by unfold Add; rw [hps]⟩

/-- Adds preserve every field except the store, and the store's length. -/
theorem addSeq_fields (es : List Bytes) (f : Filter) :
    (addSeq f es).prob = f.prob ∧ (addSeq f es).bitlen = f.bitlen ∧
    (addSeq f es).hashqty = f.hashqty ∧ (addSeq f es).n = f.n ∧
    (addSeq f es).bitstore.length = f.bitstore.length := by
  induction es generalizing f with
  | nil => exact ⟨rfl, rfl, rfl, rfl, rfl⟩
  | cons e rest ih =>
      have hstep : addSeq f (e :: rest) = addSeq ((Add f e).getD f) rest := rfl
      rw [hstep]
      cases hadd : Add f e with
      | none => simpa [hadd] using ih f
      | some f1 =>
          obtain ⟨ps, hps, rfl⟩ := Add_some hadd
          have := ih { f with bitstore := setLoop f.bitstore ps }
          simpa [hadd, length_setLoop] using this

/-- The core no-false-negative step: on a well-sized filter with a positive
bit length, a successful add makes the immediate query answer `true`. -/
theorem has_after_add {f : Filter} {e : Bytes} {f1 : Filter}
    (hlen : f.bitstore.length = f.bitlen / 64 + (if f.bitlen % 64 = 0 then 0 else 1))
    (hpos : 0 < f.bitlen) (hadd : Add f e = some f1) : Has f1 e = some true := by
  obtain ⟨ps, hps, rfl⟩ := Add_some hadd
  have hps1 : bitpositions e
      ({ f with bitstore := setLoop f.bitstore ps } : Filter).hashqty
      ({ f with bitstore := setLoop f.bitstore ps } : Filter).bitlen = some ps := hps
  obtain ⟨ps', hps', hlen', hmem, -⟩ := bitpositions_spec e f.hashqty f.bitlen
  rw [hps] at hps'
  injection hps' with hpseq
  subst hpseq
  simp only [Has, hps1]
  rw [hasLoop_eq_all _ fun p hp => (hmem p hp).1]
  have hceil : f.bitstore.length = (f.bitlen + 63) / 64 := by
    rw [hlen]; split <;> omega
  have hall : ∀ p ∈ ps, getBit (setLoop f.bitstore ps) p = true := by
    intro p hp
    obtain ⟨hp64, hpm⟩ := hmem p hp
    exact getBit_setLoop_of_mem hp hp64 (by have := hpm hpos; omega)
  simp only [Option.some.injEq]
  exact List.all_eq_true.mpr fun p hp => hall p hp

/-! ### Cross-checks against the repository's own test vectors

These pin the SHA-256 model to the digests the Go tests record
(`TestHash`, `TestBitpositions`, `TestFilter_Add`, `TestFilter_Has`,
`TestBitlocation`). -/

/-- `hash("test", 1000000) = 842533` (from `TestHash`). -/
theorem hash_vec_test : hash [116, 101, 115, 116] 1000000 = some 842533 := by
  decide

/-- `hash("test", 2^64 - 1) = 11495104353665842533`, i.e. the first sixteen
hex characters of SHA-256 of `"test"` (from `TestHash`). -/
theorem hash_vec_test_full :
    hash [116, 101, 115, 116] 18446744073709551615 =
      some 11495104353665842533 := by
  decide

/-- `hash("test0", 48) = 8` — ASCII `'0'`, not index byte 0 (from `TestHash`). -/
theorem hash_vec_test0 : hash [116, 101, 115, 116, 48] 48 = some 8 := by
  decide

/-- `Add` on the `TestFilter_Add` filter produces the recorded word
`0b…0011000100000000000000000000000010000000 = 210453397632`
(bits 7, 32, 36, 37). -/
theorem add_vec_test :
    Add ⟨0, 48, 4, 0, [0]⟩ [116, 101, 115, 116] =
      some ⟨0, 48, 4, 0, [210453397632]⟩ := by
  decide

/-- `Has("test1")` is `false` on the `TestFilter_Has` filter. -/
theorem has_vec_test1 :
    Has ⟨0, 48, 4, 0, [210453397632]⟩ [116, 101, 115, 116, 49] =
      some false := by
  decide

/-- `Has(nil)` is `false` on the `TestFilter_Has` filter. -/
theorem has_vec_nil :
    Has ⟨0, 48, 4, 0, [210453397632]⟩ [] = some false := by
  decide

/-- `bitlocation(41167512252, 2) = (20583756126, 0)` (from `TestBitlocation`). -/
theorem bitlocation_vec : bitlocation 41167512252 2 = (20583756126, 0) := by
  decide

/-! ### The claims -/

/-- C1.  No false negatives: for every filter constructed by `New` (here
with any planner outputs, after any sequence of prior adds — the claim's
"probability strictly positive" premise enters as the positive bit length
the planner yields for it), a successful `Add` of an element makes the
immediately following `Has` of that element return `true` with no error. -/
theorem new_add_then_has
    (obl : Nat → Rat → Nat) (ohq : Rat → Nat) (n : Nat) (prob : Rat)
    (f : Filter) (es : List Bytes) (e : Bytes) (f2 : Filter)
    (hnew : New obl ohq n prob = .ok f) (hbit : 0 < f.bitlen)
    (hadd : Add (addSeq f es) e = some f2) :
    Has f2 e = some true := by
  obtain ⟨-, -, -, -, hstore⟩ := New_ok hnew
  obtain ⟨-, hbl, -, -, hsl⟩ := addSeq_fields es f
  refine has_after_add ?_ ?_ hadd
  · rw [hsl, hstore, List.length_replicate, hbl]
  · rw [hbl]; exact hbit

/-- Witness for C1 at the `"test"` vector of the repository's tests. -/
theorem new_add_then_has_witness :
    Has ⟨1, 48, 4, 1, [210453397632]⟩ [116, 101, 115, 116] = some true :=
  new_add_then_has (fun _ _ => 48) (fun _ => 4) 1 1 ⟨1, 48, 4, 1, [0]⟩ []
    [116, 101, 115, 116] ⟨1, 48, 4, 1, [210453397632]⟩
    rfl (by decide) (by decide)

/-- C2.  Constructor validation: zero capacity fails with `ErrZeroElements`
(whatever the probability), a non-positive probability then fails with
`ErrProbability`, and every positive capacity and probability yields a
filter with no error.  (In Go `prob` is a `float64`; only this sign test
ever inspects it, so exact rationals capture the comparison.) -/
theorem new_validation (obl : Nat → Rat → Nat) (ohq : Rat → Nat)
    (n : Nat) (prob : Rat) :
    (n = 0 → New obl ohq n prob = .error ErrZeroElements) ∧
    (n ≠ 0 → prob ≤ 0 → New obl ohq n prob = .error ErrProbability) ∧
    (n ≠ 0 → 0 < prob →
      ∃ f, New obl ohq n prob = .ok f ∧ f.n = n ∧ f.prob = prob) := by
  refine ⟨fun h0 => ?_, fun hn hp => ?_, fun hn hp => ?_⟩
  · rw [New, if_pos h0]
  · rw [New, if_neg hn, if_pos hp]
  · rw [New, if_neg hn, if_neg (not_le.mpr hp)]
    exact ⟨_, rfl, rfl, rfl⟩

/-- Witness for C2 on concrete planner functions and inputs. -/
theorem new_validation_witness :
    New (fun n _ => n) (fun _ => 7) 0 1 = .error ErrZeroElements ∧
    New (fun n _ => n) (fun _ => 7) 3 0 = .error ErrProbability ∧
    ∃ f, New (fun n _ => n) (fun _ => 7) 3 1 = .ok f ∧
      f.n = 3 ∧ f.prob = 1 :=
  ⟨(new_validation _ _ 0 1).1 rfl,
   (new_validation _ _ 3 0).2.1 (by decide) le_rfl,
   (new_validation _ _ 3 1).2.2 (by decide) (by decide)⟩

/-- C3.  Position derivation: for positive `m`, `bitpositions` returns
exactly `k` positions, each in `[0, m)`; the `i`-th is the base-16 parse of
the first sixteen hex characters of the SHA-256 digest of the element with
the single index byte `i` appended, reduced mod `m`.  Concretely,
`"test"` with `k = 4`, `m = 48` yields `[7, 36, 32, 37]` in order. -/
theorem bitpositions_scheme :
    (∀ (e : Bytes) (k m : Nat), 0 < m →
      ∃ ps, bitpositions e k m = some ps ∧ ps.length = k ∧
        (∀ p ∈ ps, p < m) ∧
        (∀ i, i < k → ∃ v,
          parseUint ((hexEncode (sha256 (e ++ [i]))).take 16) = some v ∧
          ps.getD i 0 = v % m)) ∧
    bitpositions [116, 101, 115, 116] 4 48 = some [7, 36, 32, 37] := by
  constructor
  · intro e k m hm
    obtain ⟨ps, hps, hlen, hmem, hget⟩ := bitpositions_spec e k m
    refine ⟨ps, hps, hlen, fun p hp => (hmem p hp).2 hm, fun i hi => ?_⟩
    have h2 := hget i hi
    unfold hash at h2
    cases hpu : parseUint ((hexEncode (sha256 (e ++ [i]))).take 16) with
    | none => rw [hpu] at h2; cases h2
    | some v =>
        rw [hpu] at h2
        simp only [Option.some.injEq] at h2
        exact ⟨v, rfl, h2.symm⟩
  · decide

/-- Witness for C3: the general part applied at the concrete test vector. -/
theorem bitpositions_scheme_witness :
    (0 : Nat) < 48 ∧
    ∃ ps, bitpositions [116, 101, 115, 116] 4 48 = some ps ∧
      ps.length = 4 ∧ (∀ p ∈ ps, p < 48) ∧
      (∀ i, i < 4 → ∃ v,
        parseUint ((hexEncode (sha256 ([116, 101, 115, 116] ++ [i]))).take 16) =
          some v ∧ ps.getD i 0 = v % 48) :=
  ⟨by decide, bitpositions_scheme.1 [116, 101, 115, 116] 4 48 (by decide)⟩

/-- C4.  Idempotence: a second `Add` of the same element returns the very
same filter, so the bit array is exactly what one `Add` produces. -/
theorem add_idempotent (f : Filter) (e : Bytes) (f1 : Filter)
    (h : Add f e = some f1) : Add f1 e = some f1 := by
  obtain ⟨ps, hps, rfl⟩ := Add_some h
  obtain ⟨ps', hps', -, hmem, -⟩ := bitpositions_spec e f.hashqty f.bitlen
  rw [hps] at hps'
  injection hps' with heq
  subst heq
  have hps1 : bitpositions e
      ({ f with bitstore := setLoop f.bitstore ps } : Filter).hashqty
      ({ f with bitstore := setLoop f.bitstore ps } : Filter).bitlen = some ps := hps
  simp only [Add, hps1]
  rw [setLoop_setLoop fun p hp => (hmem p hp).1]

/-- Witness for C4 at the `"test"` vector. -/
theorem add_idempotent_witness :
    Add ⟨0, 48, 4, 0, [210453397632]⟩ [116, 101, 115, 116] =
      some ⟨0, 48, 4, 0, [210453397632]⟩ :=
  add_idempotent ⟨0, 48, 4, 0, [0]⟩ [116, 101, 115, 116]
    ⟨0, 48, 4, 0, [210453397632]⟩ (by decide)

/-- C5.  Monotonicity: a successful `Add` only ever turns bits on (every
set bit stays set), and after a sequence of adds the set bits form a
superset of those after any prefix of the sequence.  (`Has` is embedded as
a pure function — the source's query performs reads only.) -/
theorem bits_monotone :
    (∀ (f : Filter) (e : Bytes) (f1 : Filter), Add f e = some f1 →
      ∀ p, getBit f.bitstore p = true → getBit f1.bitstore p = true) ∧
    (∀ (f : Filter) (es1 es2 : List Bytes) (p : Nat),
      getBit (addSeq f es1).bitstore p = true →
      getBit (addSeq f (es1 ++ es2)).bitstore p = true) := by
  have hstep : ∀ (g : Filter) (e : Bytes) (p : Nat),
      getBit g.bitstore p = true →
      getBit ((Add g e).getD g).bitstore p = true := by
    intro g e p hp
    cases hadd : Add g e with
    | none => simpa using hp
    | some g1 =>
        obtain ⟨ps, hps, rfl⟩ := Add_some hadd
        simpa using getBit_setLoop_of_getBit hp
  constructor
  · intro f e f1 hadd p hp
    obtain ⟨ps, hps, rfl⟩ := Add_some hadd
    exact getBit_setLoop_of_getBit hp
  · intro f es1 es2 p hp
    have hsplit : addSeq f (es1 ++ es2) = addSeq (addSeq f es1) es2 := by
      simp [addSeq, List.foldl_append]
    suffices h : ∀ (g : Filter) (es : List Bytes),
        getBit g.bitstore p = true → getBit (addSeq g es).bitstore p = true by
      rw [hsplit]
      exact h _ es2 hp
    intro g es hg
    induction es generalizing g with
    | nil => exact hg
    | cons e rest ih => exact ih ((Add g e).getD g) (hstep g e p hg)

/-- Witness for C5: bit 7 set by adding `"test"` survives a further add. -/
theorem bits_monotone_witness :
    getBit (addSeq ⟨0, 48, 4, 0, [0]⟩
      ([[116, 101, 115, 116]] ++ [[97]])).bitstore 7 = true :=
  bits_monotone.2 ⟨0, 48, 4, 0, [0]⟩ [[116, 101, 115, 116]] [[97]] 7
    (by decide)

/-- C6.  Query semantics: `Has` derives exactly the positions that `Add`
ORs in (the same `bitpositions` call), and its answer is the conjunction of
the derived positions' bits — `false` as soon as one is 0 (the source's
short-circuit loop), `true` only when all are 1.  The embedding of `Has`
is a pure function of the filter: the source performs no writes. -/
theorem has_reads_all_positions (f : Filter) (e : Bytes) (ps : List Nat)
    (hps : bitpositions e f.hashqty f.bitlen = some ps) :
    Has f e = some (ps.all fun p => getBit f.bitstore p) ∧
    Add f e = some { f with bitstore := setLoop f.bitstore ps } := by
  obtain ⟨ps', hps', -, hmem, -⟩ := bitpositions_spec e f.hashqty f.bitlen
  rw [hps] at hps'
  injection hps' with heq
  subst heq
  constructor
  · simp only [Has, hps]
    rw [hasLoop_eq_all _ fun p hp => (hmem p hp).1]
  · simp only [Add, hps]

/-- Witness for C6 at the `"test"` vector. -/
theorem has_reads_all_positions_witness :
    Has ⟨0, 48, 4, 0, [210453397632]⟩ [116, 101, 115, 116] =
      some ([7, 36, 32, 37].all fun p => getBit [210453397632] p) ∧
    Add ⟨0, 48, 4, 0, [210453397632]⟩ [116, 101, 115, 116] =
      some { (⟨0, 48, 4, 0, [210453397632]⟩ : Filter) with
              bitstore := setLoop [210453397632] [7, 36, 32, 37] } :=
  has_reads_all_positions ⟨0, 48, 4, 0, [210453397632]⟩ [116, 101, 115, 116]
    [7, 36, 32, 37] (by decide)

/-- C8, counterexample.  The claim's "for every position p and word width
w" fails: at `p = 2^63`, `w = 1` the word index `p / w` does not fit in a
signed 64-bit `int`, and Go's `int(index)` conversion wraps it to
`-2^63 ≠ p / w`. -/
theorem bitlocation_int_wrap :
    (bitlocation 9223372036854775808 1).1 ≠
      ((9223372036854775808 / 1 : Nat) : Int) := by
  decide

/-- C8, amended.  For every position in `uint64` range and byte-sized word
width whose word index fits in a signed 64-bit `int` (always true for the
filter's own calls, which use width 64), `bitlocation` is division and
remainder by the width, with width 0 treated as 8; in particular
`bitlocation 63 64 = (0, 63)` and `bitlocation 64 64 = (1, 0)`. -/
theorem bitlocation_spec :
    (∀ p w : Nat, p < 18446744073709551616 → w ≤ 255 →
      p / (if w = 0 then 8 else w) < 9223372036854775808 →
      bitlocation p w =
        (((p / (if w = 0 then 8 else w) : Nat) : Int),
          p % (if w = 0 then 8 else w))) ∧
    bitlocation 63 64 = (0, 63) ∧ bitlocation 64 64 = (1, 0) := by
  refine ⟨?_, by decide, by decide⟩
  intro p w hp hw hidx
  have hWpos : 0 < (if w = 0 then 8 else w) := by split <;> omega
  have hW255 : (if w = 0 then 8 else w) ≤ 255 := by split <;> omega
  simp only [bitlocation, int64ofNat]
  generalize (if w = 0 then 8 else w) = W at hidx hWpos hW255 ⊢
  have hdiv_le : p / W ≤ p := Nat.div_le_self p W
  rw [Nat.mod_eq_of_lt (show p / W < 18446744073709551616 by omega),
    if_pos hidx]
  have hdm := Nat.div_add_mod p W
  have hmlt : p % W < W := Nat.mod_lt _ hWpos
  simp only [Prod.mk.injEq, true_and]
  rw [Nat.mul_comm (p / W) W]
  have hsub : p - W * (p / W) = p % W := by omega
  rw [hsub, Nat.mod_eq_of_lt (by omega)]

/-- Witness for C8's amended statement at the large `TestBitlocation`
vector. -/
theorem bitlocation_spec_witness :
    bitlocation 41167512252 2 =
      (((41167512252 / (if 2 = 0 then 8 else 2) : Nat) : Int),
        41167512252 % (if 2 = 0 then 8 else 2)) :=
  bitlocation_spec.1 41167512252 2 (by decide) (by decide) (by decide)

/-- C10.  In-bounds access: on a filter built by `New` whose bit length is
positive (what the planner returns for a probability in `(0, 1)`), every
`bitstore` index that `Add` or `Has` touches — the `int`-converted word
index of each derived position — is nonnegative and below the allocated
word count, which is exactly `ceil(bitlen / 64)`. -/
theorem new_access_in_bounds
    (obl : Nat → Rat → Nat) (ohq : Rat → Nat) (n : Nat) (prob : Rat)
    (f : Filter) (e : Bytes) (ps : List Nat) (p : Nat)
    (hnew : New obl ohq n prob = .ok f) (hbit : 0 < f.bitlen)
    (hps : bitpositions e f.hashqty f.bitlen = some ps) (hp : p ∈ ps) :
    f.bitstore.length = (f.bitlen + 63) / 64 ∧
    0 ≤ (bitlocation p 64).1 ∧
    (bitlocation p 64).1.toNat < f.bitstore.length := by
  have hlen := New_length hnew
  obtain ⟨ps', hps', -, hmem, -⟩ := bitpositions_spec e f.hashqty f.bitlen
  rw [hps] at hps'
  injection hps' with heq
  subst heq
  obtain ⟨hp64, hpm⟩ := hmem p hp
  have hplt := hpm hbit
  rw [bitlocation64 hp64]
  refine ⟨hlen, Int.natCast_nonneg _, ?_⟩
  simp only [Int.toNat_ofNat]
  omega

/-- Witness for C10 at the `"test"` vector on a 48-bit filter. -/
theorem new_access_in_bounds_witness :
    (⟨1, 48, 4, 1, [0]⟩ : Filter).bitstore.length = (48 + 63) / 64 ∧
    0 ≤ (bitlocation 7 64).1 ∧
    (bitlocation 7 64).1.toNat < (⟨1, 48, 4, 1, [0]⟩ : Filter).bitstore.length :=
  new_access_in_bounds (fun _ _ => 48) (fun _ => 4) 1 1 ⟨1, 48, 4, 1, [0]⟩
    [116, 101, 115, 116] [7, 36, 32, 37] 7
    rfl (by decide) (by decide) (by decide)

end Bloom
